import Mathlib

/-!
Verification of the `local_inference_pool` core: a shallow embedding of
`config.py` (ServerConfig), `pool.py` (ServerPool) and the pool-facing part of
`dispatcher.py` (ConcurrentDispatcher), with theorems settling the frozen
claims about admission, release, manifest refresh and the dispatcher's
draining pass.

Python integers are embedded as `Int`; Python's ordered `dict` of servers is
embedded as a `List ServerConfig` in configuration (insertion) order, the key
being the `url` field; `asyncio.Event` is embedded as a `Bool` flag; the HTTP
manifest fetch performed by `_refresh_manifest` is abstracted as a per-URL
outcome oracle (`some models` on success, `none` on any failure), since the
wire call is an external collaborator.
-/

namespace LocalInferencePool

/-- Embedding of `config.py`, class `ServerConfig`: one inference server's
mutable record. -/
@[ext]
structure ServerConfig where
  url : String
  available_models : List String := []
  active_requests : Int := 0
  max_concurrent : Int := 1
  current_model : Option String := none
  deriving Repr, DecidableEq

/-- Embedding of `ServerConfig.is_busy`: busy when all slots are in use
(`active_requests >= max_concurrent`). -/
def ServerConfig.is_busy (s : ServerConfig) : Prop :=
  s.active_requests ≥ s.max_concurrent

instance (s : ServerConfig) : Decidable s.is_busy :=
  inferInstanceAs (Decidable (s.active_requests ≥ s.max_concurrent))

/-- Embedding of `pool.py`, class `ServerPool`: the ordered server map plus the
`resource_available` event (set = `true`). -/
structure ServerPool where
  servers : List ServerConfig
  resource_available : Bool := false
  deriving Repr, DecidableEq

/-- First-occurrence deduplication, matching the key set and key order of the
Python dict comprehension `{url: ServerConfig(url=url) for url in server_urls}`. -/
def dedupKeepFirst : List String → List String
  | [] => []
  | u :: us => u :: (dedupKeepFirst us).filter (fun v => v ≠ u)

/-- Embedding of `ServerPool.__init__`: one default record per distinct URL, in
configuration order; the event starts unset. -/
def ServerPool.init (server_urls : List String) : ServerPool :=
  { servers := (dedupKeepFirst server_urls).map (fun u => { url := u }),
    resource_available := false }

/-- Comparison against the running best of the selection loop: `best_load`
starts at `float("inf")` (embedded as `none`), so any load beats an empty
best. -/
def beatsBest (a : Int) : Option (String × Int) → Prop
  | none => True
  | some p => a < p.2

instance (a : Int) (best : Option (String × Int)) : Decidable (beatsBest a best) :=
  match best with
  | none => isTrue trivial
  | some p => inferInstanceAs (Decidable (a < p.2))

/-- One iteration of the selection loop in `ServerPool.find_and_acquire`
(pool.py lines 79-90): skip a server missing the model, skip a server pinned to
a different model with active requests (JIT-swap protection), and otherwise
record it as the new best if it is not busy and strictly improves the load. -/
def pickStep (model_id : String) (best : Option (String × Int)) (s : ServerConfig) :
    Option (String × Int) :=
  if model_id ∉ s.available_models then best
  else if s.current_model ≠ none ∧ s.current_model ≠ some model_id ∧ 0 < s.active_requests then
    best
  else if ¬ s.is_busy ∧ beatsBest s.active_requests best then some (s.url, s.active_requests)
  else best

/-- Embedding of `ServerPool.find_and_acquire`: fold the selection loop over
the servers in configuration order; on a hit, increment the winner's
`active_requests`, pin `current_model`, and return its URL; on a miss return
`none` with the pool untouched. -/
def ServerPool.find_and_acquire (pool : ServerPool) (model_id : String) :
    Option String × ServerPool :=
  match pool.servers.foldl (pickStep model_id) none with
  | none => (none, pool)
  | some best => (some best.1,
      { pool with
        servers := pool.servers.map (fun s =>
          if s.url = best.1 then
            { s with active_requests := s.active_requests + 1,
                     current_model := some model_id }
          else s) })

/-- Per-record update of `ServerPool.release_server`: decrement floored at 0;
clear `current_model` exactly when the count reaches 0. -/
def releaseUpdate (s : ServerConfig) : ServerConfig :=
  let a := max 0 (s.active_requests - 1)
  { s with active_requests := a,
           current_model := if a = 0 then none else s.current_model }

/-- Embedding of `ServerPool.release_server`: if the URL names a configured
server, apply `releaseUpdate` to it and set the `resource_available` event;
otherwise do nothing. -/
def ServerPool.release_server (pool : ServerPool) (server_url : String) : ServerPool :=
  if server_url ∈ pool.servers.map (fun s => s.url) then
    { servers := pool.servers.map (fun s => if s.url = server_url then releaseUpdate s else s),
      resource_available := true }
  else pool

/-- Per-record update of `ServerPool._refresh_manifest`: a successful fetch
replaces `available_models` with the reported list; any failure (unreachable,
non-2xx, malformed payload) replaces it with the empty list. -/
def refreshUpdate (outcome : Option (List String)) (s : ServerConfig) : ServerConfig :=
  match outcome with
  | some model_ids => { s with available_models := model_ids }
  | none => { s with available_models := [] }

/-- Embedding of `ServerPool.refresh_all_manifests`: one independent fetch per
server, each server updated from its own outcome only; the fetch itself is
abstracted as the `outcomes` oracle. -/
def ServerPool.refresh_all_manifests (pool : ServerPool)
    (outcomes : String → Option (List String)) : ServerPool :=
  { pool with servers := pool.servers.map (fun s => refreshUpdate (outcomes s.url) s) }

/-- Embedding of `ServerPool.get_all_available_models`: union of all servers'
catalogs, as a set. -/
def ServerPool.get_all_available_models (pool : ServerPool) : Finset String :=
  pool.servers.foldl (fun result s => result ∪ s.available_models.toFinset) ∅

/-- Embedding of `ServerPool.get_server_url_by_index`: the URL at position
`idx` in configuration order when `0 ≤ idx < len`, `none` otherwise. -/
def ServerPool.get_server_url_by_index (pool : ServerPool) (idx : Int) : Option String :=
  if 0 ≤ idx ∧ idx < ((pool.servers.map (fun s => s.url)).length : Int) then
    (pool.servers.map (fun s => s.url)).get? idx.toNat
  else none

/-- Embedding of `ServerPool.set_max_concurrent`: clamp to a minimum of 1 and
apply to every server. -/
def ServerPool.set_max_concurrent (pool : ServerPool) (max_concurrent : Int) : ServerPool :=
  { pool with
    servers := pool.servers.map (fun s => { s with max_concurrent := max 1 max_concurrent }) }

/-- Eligibility of one server for one model, read off the skip conditions of
the selection loop: the model is in the catalog, JIT-swap protection does not
veto, and the server is not busy. A server is selectable by
`find_and_acquire` iff it is eligible. -/
def eligible (model_id : String) (s : ServerConfig) : Prop :=
  model_id ∈ s.available_models ∧
  ¬(s.current_model ≠ none ∧ s.current_model ≠ some model_id ∧ 0 < s.active_requests) ∧
  ¬ s.is_busy

instance (model_id : String) (s : ServerConfig) : Decidable (eligible model_id s) :=
  inferInstanceAs (Decidable (model_id ∈ s.available_models ∧
    ¬(s.current_model ≠ none ∧ s.current_model ≠ some model_id ∧ 0 < s.active_requests) ∧
    ¬ s.is_busy))

/-- Servers eligible for a model, in configuration order. -/
def eligibleServers (model_id : String) (pool : ServerPool) : List ServerConfig :=
  pool.servers.filter (fun s => decide (eligible model_id s))

/-- First minimum by load: keeps the incumbent on ties, so the earliest server
with minimal `active_requests` wins. -/
def minByLoad (b : ServerConfig) : List ServerConfig → ServerConfig
  | [] => b
  | t :: ts => minByLoad (if t.active_requests < b.active_requests then t else b) ts

/-- Reference selection function: the first eligible server with minimal load,
in configuration order. -/
def selectFirstMin (model_id : String) (pool : ServerPool) : Option ServerConfig :=
  match eligibleServers model_id pool with
  | [] => none
  | e :: es => some (minByLoad e es)

theorem pickStep_not_eligible (m : String) (best : Option (String × Int)) (s : ServerConfig)
    (h : ¬ eligible m s) : pickStep m best s = best := by
  unfold pickStep
  by_cases h1 : m ∉ s.available_models
  · rw [if_pos h1]
  · rw [if_neg h1]
    by_cases h2 : s.current_model ≠ none ∧ s.current_model ≠ some m ∧ 0 < s.active_requests
    · rw [if_pos h2]
    · rw [if_neg h2]
      by_cases h3 : s.is_busy
      · rw [if_neg (fun hc => hc.1 h3)]
      · exact absurd ⟨not_not.mp h1, h2, h3⟩ h

theorem pickStep_eligible (m : String) (best : Option (String × Int)) (s : ServerConfig)
    (h : eligible m s) :
    pickStep m best s =
      if beatsBest s.active_requests best then some (s.url, s.active_requests) else best := by
  obtain ⟨h1, h2, h3⟩ := h
  unfold pickStep
  rw [if_neg (not_not.mpr h1), if_neg h2]
  by_cases h4 : beatsBest s.active_requests best
  · rw [if_pos ⟨h3, h4⟩, if_pos h4]
  · rw [if_neg (fun hc => h4 hc.2), if_neg h4]

theorem minByLoad_cons (b t : ServerConfig) (ts : List ServerConfig) :
    minByLoad b (t :: ts) =
      minByLoad (if t.active_requests < b.active_requests then t else b) ts := rfl

theorem foldl_pickStep_some (m : String) :
    ∀ (l : List ServerConfig) (b : ServerConfig),
      l.foldl (pickStep m) (some (b.url, b.active_requests)) =
        some ((minByLoad b (l.filter (fun s => decide (eligible m s)))).url,
              (minByLoad b (l.filter (fun s => decide (eligible m s)))).active_requests)
  | [], b => by simp [minByLoad]
  | s :: rest, b => by
    by_cases h : eligible m s
    · rw [List.foldl_cons, pickStep_eligible m _ s h,
        List.filter_cons_of_pos (by simpa using h)]
      by_cases hlt : s.active_requests < b.active_requests
      · rw [if_pos (show beatsBest s.active_requests (some (b.url, b.active_requests)) from hlt)]
        rw [foldl_pickStep_some m rest s, minByLoad_cons, if_pos hlt]
      · rw [if_neg (show ¬ beatsBest s.active_requests (some (b.url, b.active_requests)) from hlt)]
        rw [foldl_pickStep_some m rest b, minByLoad_cons, if_neg hlt]
    · rw [List.foldl_cons, pickStep_not_eligible m _ s h,
        List.filter_cons_of_neg (by simpa using h)]
      exact foldl_pickStep_some m rest b

theorem foldl_pickStep_none (m : String) (l : List ServerConfig) :
    l.foldl (pickStep m) none =
      match l.filter (fun s => decide (eligible m s)) with
      | [] => none
      | e :: es => some ((minByLoad e es).url, (minByLoad e es).active_requests) := by
  induction l with
  | nil => simp
  | cons s rest ih =>
    by_cases h : eligible m s
    · rw [List.foldl_cons, pickStep_eligible m none s h, if_pos (show beatsBest s.active_requests none from trivial),
        List.filter_cons_of_pos (by simpa using h)]
      exact foldl_pickStep_some m rest s
    · rw [List.foldl_cons, pickStep_not_eligible m none s h,
        List.filter_cons_of_neg (by simpa using h)]
      exact ih

/-- On a miss (no eligible server), `find_and_acquire` returns `none` and the
pool value unchanged. -/
theorem find_and_acquire_of_no_eligible (pool : ServerPool) (m : String)
    (h : eligibleServers m pool = []) : pool.find_and_acquire m = (none, pool) := by
  unfold ServerPool.find_and_acquire
  rw [foldl_pickStep_none]
  unfold eligibleServers at h
  rw [h]

/-- On a hit, `find_and_acquire` returns the URL of the first eligible server
with minimal load and bumps exactly the records carrying that URL. -/
theorem find_and_acquire_of_eligible (pool : ServerPool) (m : String)
    (e : ServerConfig) (es : List ServerConfig)
    (h : eligibleServers m pool = e :: es) :
    pool.find_and_acquire m = (some (minByLoad e es).url,
      { pool with
        servers := pool.servers.map (fun s =>
          if s.url = (minByLoad e es).url then
            { s with active_requests := s.active_requests + 1,
                     current_model := some m }
          else s) }) := by
  unfold ServerPool.find_and_acquire
  rw [foldl_pickStep_none]
  unfold eligibleServers at h
  rw [h]

theorem minByLoad_split (b : ServerConfig) (ts : List ServerConfig) :
    ∃ l1 l2, b :: ts = l1 ++ minByLoad b ts :: l2 ∧
      (∀ t ∈ l1, (minByLoad b ts).active_requests < t.active_requests) ∧
      (∀ t ∈ l2, (minByLoad b ts).active_requests ≤ t.active_requests) := by
  induction ts generalizing b with
  | nil =>
    refine ⟨[], [], rfl, ?_, ?_⟩ <;> intro t ht <;> simp at ht
  | cons t ts ih =>
    rw [minByLoad_cons]
    by_cases hlt : t.active_requests < b.active_requests
    · rw [if_pos hlt]
      obtain ⟨l1, l2, heq, hl1, hl2⟩ := ih t
      have hmt : (minByLoad t ts).active_requests ≤ t.active_requests := by
        cases l1 with
        | nil =>
          simp only [List.nil_append, List.cons.injEq] at heq
          rw [← heq.1]
        | cons x l1' =>
          simp only [List.cons_append, List.cons.injEq] at heq
          have hx := hl1 x (List.mem_cons_self x l1')
          rw [← heq.1] at hx
          exact le_of_lt hx
      refine ⟨b :: l1, l2, by rw [List.cons_append, ← heq], ?_, hl2⟩
      intro y hy
      rcases List.mem_cons.mp hy with rfl | hy'
      · exact lt_of_le_of_lt hmt hlt
      · exact hl1 y hy'
    · rw [if_neg hlt]
      obtain ⟨l1, l2, heq, hl1, hl2⟩ := ih b
      cases l1 with
      | nil =>
        simp only [List.nil_append, List.cons.injEq] at heq
        refine ⟨[], t :: l2, ?_, by simp, ?_⟩
        · rw [List.nil_append, ← heq.1, ← heq.2]
        · intro y hy
          rcases List.mem_cons.mp hy with rfl | hy'
          · rw [← heq.1]
            exact le_of_not_lt hlt
          · exact hl2 y hy'
      | cons x l1' =>
        simp only [List.cons_append, List.cons.injEq] at heq
        have hxb : (minByLoad b ts).active_requests < b.active_requests := by
          have hx := hl1 x (List.mem_cons_self x l1')
          rw [← heq.1] at hx
          exact hx
        refine ⟨b :: t :: l1', l2, ?_, ?_, hl2⟩
        · rw [List.cons_append, List.cons_append, ← heq.2]
        · intro y hy
          rcases List.mem_cons.mp hy with rfl | hy'
          · exact hxb
          · rcases List.mem_cons.mp hy' with rfl | hy''
            · exact lt_of_lt_of_le hxb (le_of_not_lt hlt)
            · exact hl1 y (List.mem_cons_of_mem x hy'')

theorem minByLoad_mem (b : ServerConfig) (ts : List ServerConfig) :
    minByLoad b ts ∈ b :: ts := by
  obtain ⟨l1, l2, heq, -, -⟩ := minByLoad_split b ts
  rw [heq]
  exact List.mem_append_right l1 (List.mem_cons_self _ l2)

theorem mem_eligibleServers {m : String} {pool : ServerPool} {s : ServerConfig} :
    s ∈ eligibleServers m pool ↔ s ∈ pool.servers ∧ eligible m s := by
  simp [eligibleServers, List.mem_filter]

/-- Two-server pool with one server pinned to modelA under load and one idle
server, used as a concrete instance for several witnesses. -/
def demoPool : ServerPool :=
  { servers := [
      { url := "http://s0", available_models := ["modelA", "shared"],
        active_requests := 1, max_concurrent := 4, current_model := some "modelA" },
      { url := "http://s1", available_models := ["modelA", "shared"],
        active_requests := 0, max_concurrent := 4, current_model := none }] }

/-- C5: whenever at least one server is eligible for the requested model,
`find_and_acquire` returns the URL of an eligible server whose
`active_requests` is minimal among all eligible servers; every eligible server
strictly earlier in configuration order has strictly greater load, so ties are
broken by the fixed enumeration order. In particular, of two eligible servers
with unequal load, the less loaded one is returned. -/
theorem least_loaded_selection_spec (pool : ServerPool) (m : String)
    (h : eligibleServers m pool ≠ []) :
    ∃ w l1 l2, eligibleServers m pool = l1 ++ w :: l2 ∧
      (pool.find_and_acquire m).1 = some w.url ∧
      (∀ t ∈ eligibleServers m pool, w.active_requests ≤ t.active_requests) ∧
      (∀ t ∈ l1, w.active_requests < t.active_requests) ∧
      (∀ t ∈ l2, w.active_requests ≤ t.active_requests) := by
  cases hE : eligibleServers m pool with
  | nil => exact absurd hE h
  | cons e es =>
    obtain ⟨l1, l2, heq, hl1, hl2⟩ := minByLoad_split e es
    refine ⟨minByLoad e es, l1, l2, heq, ?_, ?_, hl1, hl2⟩
    · rw [find_and_acquire_of_eligible pool m e es hE]
    · intro t ht
      rw [heq] at ht
      rcases List.mem_append.mp ht with h1 | h2
      · exact le_of_lt (hl1 t h1)
      · rcases List.mem_cons.mp h2 with rfl | h3
        · exact le_refl _
        · exact hl2 t h3

/-- Witness for C5 on `demoPool`: both servers are eligible for "modelA"
(server s0 is pinned to "modelA" itself, so JIT protection does not veto), and
the less loaded s1 must win. -/
theorem least_loaded_selection_spec_instance :
    eligibleServers "modelA" demoPool ≠ [] ∧
    ∃ w l1 l2, eligibleServers "modelA" demoPool = l1 ++ w :: l2 ∧
      (demoPool.find_and_acquire "modelA").1 = some w.url ∧
      (∀ t ∈ eligibleServers "modelA" demoPool, w.active_requests ≤ t.active_requests) ∧
      (∀ t ∈ l1, w.active_requests < t.active_requests) ∧
      (∀ t ∈ l2, w.active_requests ≤ t.active_requests) :=
  ⟨by decide, least_loaded_selection_spec demoPool "modelA" (by decide)⟩

/-- C6: an admission miss is side-effect free — when no server is eligible
(model-availability, capacity and JIT-swap rules all considered),
`find_and_acquire` returns `none` and the resulting pool is the very same
value, so no server's `available_models`, `active_requests`,
`max_concurrent` or `current_model` changes. -/
theorem admission_miss_side_effect_free (pool : ServerPool) (m : String)
    (h : ∀ s ∈ pool.servers, ¬ eligible m s) :
    pool.find_and_acquire m = (none, pool) := by
  apply find_and_acquire_of_no_eligible
  unfold eligibleServers
  rw [List.filter_eq_nil_iff]
  intro s hs
  simpa using h s hs

/-- Single-server pool not offering "modelZ", the concrete miss instance. -/
def missPool : ServerPool :=
  { servers := [{ url := "http://s0", available_models := ["modelA"],
                  active_requests := 0, max_concurrent := 1, current_model := none }] }

/-- Witness for C6 on `missPool`: "modelZ" is in no catalog, so the call
returns `none` and the pool value is unchanged. -/
theorem admission_miss_side_effect_free_instance :
    (∀ s ∈ missPool.servers, ¬ eligible "modelZ" s) ∧
    missPool.find_and_acquire "modelZ" = (none, missPool) :=
  ⟨by decide, admission_miss_side_effect_free missPool "modelZ" (by decide)⟩

/-- C1: JIT-swap protection. With distinct server URLs: (1) a server whose
`current_model` is some `A ≠ B` and whose `active_requests` is positive is
never the server selected by `find_and_acquire B`, even if `B` is in its
catalog; (2) whichever server `find_and_acquire B` does select has its
`current_model` set to `B` in the resulting pool; (3) a drained server
(`active_requests = 0`, as left by `release_server` draining it) with `B` in
its catalog and spare capacity is eligible for `B`, so `find_and_acquire B`
may select it. -/
theorem jit_swap_protection_spec (pool : ServerPool) (B : String)
    (hnd : (pool.servers.map (fun s => s.url)).Nodup) :
    (∀ s ∈ pool.servers, ∀ A, s.current_model = some A → A ≠ B →
        0 < s.active_requests → (pool.find_and_acquire B).1 ≠ some s.url) ∧
    (∀ u, (pool.find_and_acquire B).1 = some u →
        ∀ s ∈ (pool.find_and_acquire B).2.servers, s.url = u → s.current_model = some B) ∧
    (∀ s ∈ pool.servers, s.active_requests = 0 → B ∈ s.available_models →
        s.active_requests < s.max_concurrent → eligible B s) := by
  refine ⟨?_, ?_, ?_⟩
  · intro s hs A hA hAB hact hres
    cases hE : eligibleServers B pool with
    | nil =>
      rw [find_and_acquire_of_no_eligible pool B hE] at hres
      exact Option.noConfusion hres
    | cons e es =>
      rw [find_and_acquire_of_eligible pool B e es hE] at hres
      have hw : minByLoad e es ∈ eligibleServers B pool := by
        rw [hE]
        exact minByLoad_mem e es
      obtain ⟨hwmem, hwel⟩ := mem_eligibleServers.mp hw
      have hurl : (minByLoad e es).url = s.url := Option.some.injEq _ _ ▸ hres
      have hsw : minByLoad e es = s :=
        List.inj_on_of_nodup_map hnd hwmem hs hurl
      apply hwel.2.1
      rw [hsw, hA]
      refine ⟨by simp, by simpa using hAB, hact⟩
  · intro u hres s hs hsu
    cases hE : eligibleServers B pool with
    | nil =>
      rw [find_and_acquire_of_no_eligible pool B hE] at hres
      exact Option.noConfusion hres
    | cons e es =>
      have hu : u = (minByLoad e es).url := by
        rw [find_and_acquire_of_eligible pool B e es hE] at hres
        exact (Option.some.injEq _ _ ▸ hres).symm
      rw [find_and_acquire_of_eligible pool B e es hE] at hs
      simp only [List.mem_map] at hs
      obtain ⟨t, ht, rfl⟩ := hs
      by_cases hcase : t.url = (minByLoad e es).url
      · rw [if_pos hcase]
      · rw [if_neg hcase]
        rw [if_neg hcase] at hsu
        exact absurd (hsu.trans hu) hcase
  · intro s hs h0 hB hcap
    refine ⟨hB, ?_, ?_⟩
    · intro hc
      rw [h0] at hc
      exact lt_irrefl 0 hc.2.2
    · intro hbusy
      rw [h0] at hcap
      unfold ServerConfig.is_busy at hbusy
      omega

/-- Pool with a pinned, loaded server that also lists "modelB", and a second
server with an empty catalog — the concrete JIT-protection instance. -/
def pinnedPool : ServerPool :=
  { servers := [
      { url := "http://s0", available_models := ["modelA", "modelB"],
        active_requests := 1, max_concurrent := 4, current_model := some "modelA" },
      { url := "http://s1", available_models := [],
        active_requests := 0, max_concurrent := 4, current_model := none }] }

/-- Witness for C1 on `pinnedPool` with model "modelB". -/
theorem jit_swap_protection_spec_instance :
    ((pinnedPool.servers.map (fun s => s.url)).Nodup) ∧
    ((∀ s ∈ pinnedPool.servers, ∀ A, s.current_model = some A → A ≠ "modelB" →
        0 < s.active_requests → (pinnedPool.find_and_acquire "modelB").1 ≠ some s.url) ∧
    (∀ u, (pinnedPool.find_and_acquire "modelB").1 = some u →
        ∀ s ∈ (pinnedPool.find_and_acquire "modelB").2.servers, s.url = u →
          s.current_model = some "modelB") ∧
    (∀ s ∈ pinnedPool.servers, s.active_requests = 0 → "modelB" ∈ s.available_models →
        s.active_requests < s.max_concurrent → eligible "modelB" s)) :=
  ⟨by decide, jit_swap_protection_spec pinnedPool "modelB" (by decide)⟩

/-- C7: `release_server` on a configured URL decrements that server's
`active_requests` floored at 0 (a double release never drives it negative),
clears `current_model` exactly when the count reaches 0, leaves every field of
every other server untouched, and always sets the capacity-changed signal
(`resource_available`), whether or not eligibility changed. -/
theorem release_server_spec (pool : ServerPool) (u : String)
    (hmem : u ∈ pool.servers.map (fun s => s.url)) :
    (pool.release_server u).resource_available = true ∧
    (pool.release_server u).servers.length = pool.servers.length ∧
    (∀ i : Nat, ∀ s, pool.servers[i]? = some s →
      ((s.url ≠ u → (pool.release_server u).servers[i]? = some s) ∧
       (s.url = u → ∃ s', (pool.release_server u).servers[i]? = some s' ∧
          s'.url = s.url ∧ s'.available_models = s.available_models ∧
          s'.max_concurrent = s.max_concurrent ∧
          s'.active_requests = max 0 (s.active_requests - 1) ∧
          0 ≤ s'.active_requests ∧
          (s'.active_requests = 0 → s'.current_model = none) ∧
          (s'.active_requests ≠ 0 → s'.current_model = s.current_model)))) := by
  unfold ServerPool.release_server
  rw [if_pos hmem]
  refine ⟨rfl, by simp, ?_⟩
  intro i s hget
  constructor
  · intro hne
    simp only [List.getElem?_map, hget, Option.map_some']
    rw [if_neg hne]
  · intro heq
    refine ⟨releaseUpdate s, ?_, rfl, rfl, rfl, rfl, le_max_left 0 _, ?_, ?_⟩
    · simp only [List.getElem?_map, hget, Option.map_some']
      rw [if_pos heq]
    · intro h0
      have h0' : max 0 (s.active_requests - 1) = 0 := h0
      show (if max 0 (s.active_requests - 1) = 0 then none else s.current_model) = none
      rw [if_pos h0']
    · intro h0
      have h0' : ¬ max 0 (s.active_requests - 1) = 0 := h0
      show (if max 0 (s.active_requests - 1) = 0 then none else s.current_model) =
        s.current_model
      rw [if_neg h0']

/-- Witness for C7: releasing demoPool's loaded server s0. -/
theorem release_server_spec_instance :
    "http://s0" ∈ demoPool.servers.map (fun s => s.url) ∧
    ((demoPool.release_server "http://s0").resource_available = true ∧
    (demoPool.release_server "http://s0").servers.length = demoPool.servers.length ∧
    (∀ i : Nat, ∀ s, demoPool.servers[i]? = some s →
      ((s.url ≠ "http://s0" →
          (demoPool.release_server "http://s0").servers[i]? = some s) ∧
       (s.url = "http://s0" → ∃ s',
          (demoPool.release_server "http://s0").servers[i]? = some s' ∧
          s'.url = s.url ∧ s'.available_models = s.available_models ∧
          s'.max_concurrent = s.max_concurrent ∧
          s'.active_requests = max 0 (s.active_requests - 1) ∧
          0 ≤ s'.active_requests ∧
          (s'.active_requests = 0 → s'.current_model = none) ∧
          (s'.active_requests ≠ 0 → s'.current_model = s.current_model))))) :=
  ⟨by decide, release_server_spec demoPool "http://s0" (by decide)⟩

/-- C9: manifest refresh isolation. First part: each server's record after
`refresh_all_manifests` is determined by its own outcome alone — a success
replaces `available_models` with the reported list, a failure replaces it with
the empty list, and nothing else of the record changes; the refresh is a total
function, so no per-server failure aborts the others or escapes to the caller.
Second part: a fresh two-server pool with the first server unreachable and the
second healthy ends with exactly the healthy server's models as the union and
an empty catalog on the unreachable server. -/
theorem manifest_refresh_isolation :
    (∀ (pool : ServerPool) (outcomes : String → Option (List String)) (i : Nat)
        (s : ServerConfig), pool.servers[i]? = some s →
        ((∀ rms, outcomes s.url = some rms →
            (pool.refresh_all_manifests outcomes).servers[i]? =
              some { s with available_models := rms }) ∧
         (outcomes s.url = none →
            (pool.refresh_all_manifests outcomes).servers[i]? =
              some { s with available_models := [] }))) ∧
    (∀ u0 u1 : String, ∀ ms : List String, u0 ≠ u1 →
        ((ServerPool.init [u0, u1]).refresh_all_manifests
            (fun u => if u = u1 then some ms else none)).get_all_available_models =
          ms.toFinset ∧
        ∃ s0, ((ServerPool.init [u0, u1]).refresh_all_manifests
            (fun u => if u = u1 then some ms else none)).servers[0]? = some s0 ∧
          s0.available_models = []) := by
  constructor
  · intro pool outcomes i s hget
    constructor
    · intro rms hsucc
      simp only [ServerPool.refresh_all_manifests, List.getElem?_map, hget,
        Option.map_some', refreshUpdate, hsucc]
    · intro hfail
      simp only [ServerPool.refresh_all_manifests, List.getElem?_map, hget,
        Option.map_some', refreshUpdate, hfail]
  · intro u0 u1 ms h
    have h10 : u1 ≠ u0 := fun e => h e.symm
    have hd : dedupKeepFirst [u0, u1] = [u0, u1] := by
      simp [dedupKeepFirst, h10]
    constructor
    · simp [ServerPool.init, hd, ServerPool.refresh_all_manifests, refreshUpdate,
        ServerPool.get_all_available_models, h]
    · refine ⟨{ url := u0, available_models := [] }, ?_, rfl⟩
      simp [ServerPool.init, hd, ServerPool.refresh_all_manifests, refreshUpdate, h]

/-- Witness for C9 at a concrete pool, outcome oracle and index, and concrete
URL pair. -/
theorem manifest_refresh_isolation_instance :
    demoPool.servers[0]? = some
      { url := "http://s0", available_models := ["modelA", "shared"],
        active_requests := 1, max_concurrent := 4, current_model := some "modelA" } ∧
    (fun _ : String => (none : Option (List String))) "http://s0" = none ∧
    (demoPool.refresh_all_manifests (fun _ => none)).servers[0]? =
      some { url := "http://s0", available_models := ([] : List String),
             active_requests := 1, max_concurrent := 4,
             current_model := some "modelA" } :=
  ⟨by decide, rfl,
    ((manifest_refresh_isolation.1 demoPool (fun _ => none) 0
      { url := "http://s0", available_models := ["modelA", "shared"],
        active_requests := 1, max_concurrent := 4, current_model := some "modelA" }
      (by decide)).2 rfl)⟩

/-- C10: `get_server_url_by_index` is total and optional — an in-range `idx`
(0-based, against configuration order) yields `some` of the idx-th URL, and
any out-of-range `idx` (negative included) yields `none` rather than an
error; the pool value is not touched (the embedding is a pure function of the
pool). -/
theorem get_server_url_by_index_spec (pool : ServerPool) (idx : Int) :
    (0 ≤ idx → idx < (pool.servers.length : Int) →
        ∃ u, pool.get_server_url_by_index idx = some u ∧
          (pool.servers.map (fun s => s.url))[idx.toNat]? = some u) ∧
    (idx < 0 ∨ (pool.servers.length : Int) ≤ idx →
        pool.get_server_url_by_index idx = none) := by
  constructor
  · intro h0 hlt
    have hn : idx.toNat < (pool.servers.map (fun s => s.url)).length := by
      rw [List.length_map]
      omega
    refine ⟨(pool.servers.map (fun s => s.url)).get ⟨idx.toNat, hn⟩, ?_, ?_⟩
    · unfold ServerPool.get_server_url_by_index
      rw [if_pos ⟨h0, by rw [List.length_map]; exact hlt⟩, List.get?_eq_getElem?,
        List.getElem?_eq_getElem hn]
      rfl
    · rw [List.getElem?_eq_getElem hn]
      rfl
  · intro hout
    unfold ServerPool.get_server_url_by_index
    rw [if_neg]
    intro hc
    rw [List.length_map] at hc
    rcases hout with h | h <;> omega

/-- Witness for C10: index 0 of the one-server `missPool` is in range and
returns its URL, instantiating the in-range branch. -/
theorem get_server_url_by_index_spec_instance :
    (0 : Int) ≤ 0 ∧ (0 : Int) < (missPool.servers.length : Int) ∧
    ∃ u, missPool.get_server_url_by_index 0 = some u ∧
      (missPool.servers.map (fun s => s.url))[(0 : Int).toNat]? = some u :=
  ⟨by decide, by decide,
    (get_server_url_by_index_spec missPool 0).1 (by decide) (by decide)⟩

/-- One externally callable pool mutation, for reachability statements. The
refresh case carries the manifest outcome oracle of that call. -/
inductive PoolOp
  | acquire (model_id : String)
  | release (server_url : String)
  | refresh (outcomes : String → Option (List String))
  | setMax (max_concurrent : Int)

/-- Apply one operation, discarding the URL returned by an acquire. -/
def applyOp (pool : ServerPool) : PoolOp → ServerPool
  | .acquire m => (pool.find_and_acquire m).2
  | .release u => pool.release_server u
  | .refresh outcomes => pool.refresh_all_manifests outcomes
  | .setMax n => pool.set_max_concurrent n

/-- Run a call sequence left to right. -/
def runOps (pool : ServerPool) : List PoolOp → ServerPool
  | [] => pool
  | op :: ops => runOps (applyOp pool op) ops

/-- Pool state reachable from construction by some call sequence. -/
def Reachable (p : ServerPool) : Prop :=
  ∃ server_urls ops, p = runOps (ServerPool.init server_urls) ops

/-- Wellformedness maintained by every operation: URLs are pairwise distinct
(the Python dict key set), loads are non-negative, and `current_model` is
unset exactly on drained servers. -/
def WF (pool : ServerPool) : Prop :=
  (pool.servers.map (fun s => s.url)).Nodup ∧
  ∀ s ∈ pool.servers, 0 ≤ s.active_requests ∧ (s.current_model = none ↔ s.active_requests = 0)

instance (pool : ServerPool) : Decidable (WF pool) :=
  inferInstanceAs (Decidable ((pool.servers.map (fun s : ServerConfig => s.url)).Nodup ∧
    ∀ s ∈ pool.servers, 0 ≤ s.active_requests ∧
      (s.current_model = none ↔ s.active_requests = 0)))

theorem map_url_of_preserved {f : ServerConfig → ServerConfig}
    (hf : ∀ s, (f s).url = s.url) (l : List ServerConfig) :
    (l.map f).map (fun s => s.url) = l.map (fun s => s.url) := by
  rw [List.map_map]
  exact List.map_congr_left (fun s _ => hf s)

theorem nodup_url_map {f : ServerConfig → ServerConfig} (l : List ServerConfig)
    (h : (l.map (fun s => s.url)).Nodup) (hf : ∀ s, (f s).url = s.url) :
    ((l.map f).map (fun s => s.url)).Nodup := by
  rw [map_url_of_preserved hf l]
  exact h

theorem dedupKeepFirst_nodup (l : List String) : (dedupKeepFirst l).Nodup := by
  induction l with
  | nil => exact List.nodup_nil
  | cons u us ih =>
    rw [dedupKeepFirst]
    refine List.nodup_cons.mpr ⟨?_, ih.filter _⟩
    intro hmem
    have hne := List.of_mem_filter hmem
    simp at hne

theorem init_map_url (server_urls : List String) :
    (ServerPool.init server_urls).servers.map (fun s => s.url) = dedupKeepFirst server_urls := by
  simp only [ServerPool.init, List.map_map, Function.comp_def]
  exact List.map_id (dedupKeepFirst server_urls)

theorem WF_init (server_urls : List String) : WF (ServerPool.init server_urls) := by
  constructor
  · rw [init_map_url]
    exact dedupKeepFirst_nodup server_urls
  · intro s hs
    obtain ⟨u, hu, rfl⟩ := List.mem_map.mp hs
    exact ⟨le_refl 0, by constructor <;> intro <;> rfl⟩

theorem WF_find_and_acquire (pool : ServerPool) (m : String) (h : WF pool) :
    WF (pool.find_and_acquire m).2 := by
  cases hE : eligibleServers m pool with
  | nil =>
    rw [find_and_acquire_of_no_eligible pool m hE]
    exact h
  | cons e es =>
    rw [find_and_acquire_of_eligible pool m e es hE]
    obtain ⟨hnd, hsrv⟩ := h
    constructor
    · refine nodup_url_map pool.servers hnd (fun s => ?_)
      by_cases hc : s.url = (minByLoad e es).url <;> simp [hc]
    · intro s' hs'
      obtain ⟨s, hs, rfl⟩ := List.mem_map.mp hs'
      obtain ⟨hnn, hiff⟩ := hsrv s hs
      by_cases hc : s.url = (minByLoad e es).url
      · simp only [if_pos hc]
        refine ⟨by omega, ?_, ?_⟩
        · intro hx
          exact absurd hx (Option.some_ne_none m)
        · intro hx
          exact absurd hx (by omega)
      · simp only [if_neg hc]
        exact ⟨hnn, hiff⟩

theorem WF_release_server (pool : ServerPool) (u : String) (h : WF pool) :
    WF (pool.release_server u) := by
  unfold ServerPool.release_server
  by_cases hmem : u ∈ pool.servers.map (fun s => s.url)
  · rw [if_pos hmem]
    obtain ⟨hnd, hsrv⟩ := h
    constructor
    · refine nodup_url_map pool.servers hnd (fun s => ?_)
      by_cases hc : s.url = u <;> simp [hc, releaseUpdate]
    · intro s' hs'
      obtain ⟨s, hs, rfl⟩ := List.mem_map.mp hs'
      obtain ⟨hnn, hiff⟩ := hsrv s hs
      by_cases hc : s.url = u
      · simp only [if_pos hc, releaseUpdate]
        refine ⟨le_max_left 0 _, ?_, ?_⟩
        · intro hx
          by_contra hax
          rw [if_neg hax] at hx
          have : s.active_requests ≠ 0 := fun h0 => hax (by omega)
          have hcur := (not_iff_not.mpr hiff).mpr this
          exact hcur hx
        · intro hx
          rw [if_pos hx]
      · simp only [if_neg hc]
        exact ⟨hnn, hiff⟩
  · rw [if_neg hmem]
    exact h

theorem WF_refresh_all_manifests (pool : ServerPool)
    (outcomes : String → Option (List String)) (h : WF pool) :
    WF (pool.refresh_all_manifests outcomes) := by
  obtain ⟨hnd, hsrv⟩ := h
  unfold ServerPool.refresh_all_manifests
  constructor
  · refine nodup_url_map pool.servers hnd (fun s => ?_)
    cases houtcome : outcomes s.url <;> simp [refreshUpdate, houtcome]
  · intro s' hs'
    obtain ⟨s, hs, rfl⟩ := List.mem_map.mp hs'
    have hspec := hsrv s hs
    cases houtcome : outcomes s.url <;> simp only [refreshUpdate, houtcome] <;> exact hspec

theorem WF_set_max_concurrent (pool : ServerPool) (n : Int) (h : WF pool) :
    WF (pool.set_max_concurrent n) := by
  obtain ⟨hnd, hsrv⟩ := h
  unfold ServerPool.set_max_concurrent
  constructor
  · refine nodup_url_map pool.servers hnd (fun s => ?_)
    simp
  · intro s' hs'
    obtain ⟨s, hs, rfl⟩ := List.mem_map.mp hs'
    exact hsrv s hs

theorem WF_applyOp (pool : ServerPool) (op : PoolOp) (h : WF pool) : WF (applyOp pool op) := by
  cases op with
  | acquire m => exact WF_find_and_acquire pool m h
  | release u => exact WF_release_server pool u h
  | refresh outcomes => exact WF_refresh_all_manifests pool outcomes h
  | setMax n => exact WF_set_max_concurrent pool n h

theorem WF_runOps (ops : List PoolOp) : ∀ (pool : ServerPool), WF pool → WF (runOps pool ops) := by
  induction ops with
  | nil => exact fun pool h => h
  | cons op ops ih => exact fun pool h => ih (applyOp pool op) (WF_applyOp pool op h)

theorem WF_of_reachable (p : ServerPool) (h : Reachable p) : WF p := by
  obtain ⟨server_urls, ops, rfl⟩ := h
  exact WF_runOps ops _ (WF_init server_urls)

/-- Wellformedness plus the capacity bound `active_requests ≤ max_concurrent`;
preserved by every operation except `set_max_concurrent`. -/
def CapInv (pool : ServerPool) : Prop :=
  WF pool ∧ ∀ s ∈ pool.servers, s.active_requests ≤ s.max_concurrent

theorem CapInv_init (server_urls : List String) : CapInv (ServerPool.init server_urls) := by
  refine ⟨WF_init server_urls, ?_⟩
  intro s hs
  obtain ⟨u, hu, rfl⟩ := List.mem_map.mp hs
  show (0 : Int) ≤ 1
  omega

theorem CapInv_find_and_acquire (pool : ServerPool) (m : String) (h : CapInv pool) :
    CapInv (pool.find_and_acquire m).2 := by
  obtain ⟨hwf, hcap⟩ := h
  refine ⟨WF_find_and_acquire pool m hwf, ?_⟩
  cases hE : eligibleServers m pool with
  | nil =>
    rw [find_and_acquire_of_no_eligible pool m hE]
    exact hcap
  | cons e es =>
    have hwmem : minByLoad e es ∈ eligibleServers m pool := by
      rw [hE]
      exact minByLoad_mem e es
    obtain ⟨hwsrv, hwel⟩ := mem_eligibleServers.mp hwmem
    rw [find_and_acquire_of_eligible pool m e es hE]
    intro s' hs'
    obtain ⟨s, hs, rfl⟩ := List.mem_map.mp hs'
    by_cases hc : s.url = (minByLoad e es).url
    · have hsw : s = minByLoad e es := List.inj_on_of_nodup_map hwf.1 hs hwsrv hc
      have hnb : ¬ (minByLoad e es).is_busy := hwel.2.2
      unfold ServerConfig.is_busy at hnb
      simp only [if_pos hc]
      rw [hsw]
      omega
    · simp only [if_neg hc]
      exact hcap s hs

theorem CapInv_release_server (pool : ServerPool) (u : String) (h : CapInv pool) :
    CapInv (pool.release_server u) := by
  obtain ⟨hwf, hcap⟩ := h
  refine ⟨WF_release_server pool u hwf, ?_⟩
  unfold ServerPool.release_server
  by_cases hmem : u ∈ pool.servers.map (fun s => s.url)
  · rw [if_pos hmem]
    intro s' hs'
    obtain ⟨s, hs, rfl⟩ := List.mem_map.mp hs'
    by_cases hc : s.url = u
    · have hnn := (hwf.2 s hs).1
      have hle := hcap s hs
      simp only [if_pos hc, releaseUpdate]
      rcases max_choice 0 (s.active_requests - 1) with hm | hm <;> rw [hm] <;> omega
    · simp only [if_neg hc]
      exact hcap s hs
  · rw [if_neg hmem]
    exact hcap

theorem CapInv_refresh_all_manifests (pool : ServerPool)
    (outcomes : String → Option (List String)) (h : CapInv pool) :
    CapInv (pool.refresh_all_manifests outcomes) := by
  obtain ⟨hwf, hcap⟩ := h
  refine ⟨WF_refresh_all_manifests pool outcomes hwf, ?_⟩
  unfold ServerPool.refresh_all_manifests
  intro s' hs'
  obtain ⟨s, hs, rfl⟩ := List.mem_map.mp hs'
  have hspec := hcap s hs
  cases houtcome : outcomes s.url <;> simp only [refreshUpdate, houtcome] <;> exact hspec

theorem CapInv_runOps (ops : List PoolOp) (hops : ∀ op ∈ ops, ∀ n, op ≠ PoolOp.setMax n) :
    ∀ (pool : ServerPool), CapInv pool → CapInv (runOps pool ops) := by
  induction ops with
  | nil => exact fun pool h => h
  | cons op ops ih =>
    intro pool h
    have hop := hops op (List.mem_cons_self op ops)
    have hrest : ∀ op ∈ ops, ∀ n, op ≠ PoolOp.setMax n :=
      fun o ho => hops o (List.mem_cons_of_mem op ho)
    refine ih hrest (applyOp pool op) ?_
    cases op with
    | acquire m => exact CapInv_find_and_acquire pool m h
    | release u => exact CapInv_release_server pool u h
    | refresh outcomes => exact CapInv_refresh_all_manifests pool outcomes h
    | setMax n => exact absurd rfl (hop n)

/-- C4: invariant I2 — in every state reachable from pool construction by any
sequence of `find_and_acquire`, `release_server`, `refresh_all_manifests` and
`set_max_concurrent` calls, a server's `current_model` is unset exactly when
its `active_requests` is 0. -/
theorem current_model_unset_iff_drained (p : ServerPool) (h : Reachable p) :
    ∀ s ∈ p.servers, (s.current_model = none ↔ s.active_requests = 0) :=
  fun s hs => ((WF_of_reachable p h).2 s hs).2

/-- Call sequence loading one slot of "m" onto a fresh two-server pool. -/
def reachOps : List PoolOp :=
  [PoolOp.refresh (fun _ => some ["m"]), PoolOp.acquire "m"]

/-- Concrete reachable state with one loaded and one idle server. -/
def reachPool : ServerPool := runOps (ServerPool.init ["http://s0", "http://s1"]) reachOps

/-- Witness for C4 at the concrete reachable state `reachPool`. -/
theorem current_model_unset_iff_drained_instance :
    Reachable reachPool ∧
    ∀ s ∈ reachPool.servers, (s.current_model = none ↔ s.active_requests = 0) :=
  ⟨⟨["http://s0", "http://s1"], reachOps, rfl⟩,
   current_model_unset_iff_drained reachPool ⟨["http://s0", "http://s1"], reachOps, rfl⟩⟩

/-- Call sequence refuting the unconditional upper bound of I1: raise capacity
to 2, grant two slots, then shrink capacity back (clamped to 1), leaving
`active_requests = 2 > 1 = max_concurrent`. -/
def cexOps : List PoolOp :=
  [PoolOp.refresh (fun _ => some ["m"]), PoolOp.setMax 2, PoolOp.acquire "m",
   PoolOp.acquire "m", PoolOp.setMax 0]

/-- Counterexample to C3 as stated: a state reachable with a shrinking
`set_max_concurrent` call violates `active_requests ≤ max_concurrent`
(`set_max_concurrent` does not evict granted slots). -/
theorem activity_bound_cex :
    ∃ p, Reachable p ∧ ∃ s ∈ p.servers,
      ¬(0 ≤ s.active_requests ∧ s.active_requests ≤ s.max_concurrent) := by
  refine ⟨runOps (ServerPool.init ["http://s0"]) cexOps,
    ⟨["http://s0"], cexOps, rfl⟩, ?_⟩
  decide

/-- C3 as amended: the lower bound `0 ≤ active_requests` holds in every
reachable state; the upper bound `active_requests ≤ max_concurrent` holds in
every state reachable without any `set_max_concurrent` call (a shrinking
`set_max_concurrent` may leave a server over capacity until natural drain). -/
theorem activity_bound_amended (server_urls : List String) (ops : List PoolOp) :
    (∀ s ∈ (runOps (ServerPool.init server_urls) ops).servers, 0 ≤ s.active_requests) ∧
    ((∀ op ∈ ops, ∀ n, op ≠ PoolOp.setMax n) →
      ∀ s ∈ (runOps (ServerPool.init server_urls) ops).servers,
        s.active_requests ≤ s.max_concurrent) := by
  constructor
  · intro s hs
    exact ((WF_runOps ops _ (WF_init server_urls)).2 s hs).1
  · intro hops s hs
    exact (CapInv_runOps ops hops _ (CapInv_init server_urls)).2 s hs

/-- Witness for the amended C3 on the setMax-free sequence `reachOps`. -/
theorem activity_bound_amended_instance :
    (∀ s ∈ (runOps (ServerPool.init ["http://s0"]) reachOps).servers,
        0 ≤ s.active_requests) ∧
    (∀ s ∈ (runOps (ServerPool.init ["http://s0"]) reachOps).servers,
        s.active_requests ≤ s.max_concurrent) := by
  have hops : ∀ op ∈ reachOps, ∀ n, op ≠ PoolOp.setMax n := by
    intro op hop n
    rcases List.mem_cons.mp hop with rfl | hop'
    · simp
    rcases List.mem_cons.mp hop' with rfl | hop''
    · simp
    · simp at hop''
  exact ⟨(activity_bound_amended ["http://s0"] reachOps).1,
    (activity_bound_amended ["http://s0"] reachOps).2 hops⟩

/-- State of an `asyncio.Future` as observed by the dispatcher: unresolved,
resolved with a server URL (`set_result`), or cancelled. -/
inductive FutureState
  | pending
  | resolved (server_url : String)
  | cancelled
  deriving Repr, DecidableEq

/-- Embedding of `future.done()`: true once resolved or cancelled. -/
def FutureState.isDone : FutureState → Bool
  | .pending => false
  | _ => true

/-- Embedding of `dispatcher.py`, dataclass `InferenceTask`: a pending
inference request in the dispatcher queue. -/
structure InferenceTask where
  model_id : String
  future : FutureState
  deriving Repr, DecidableEq

/-- Embedding of `future.set_result(server_url)`: succeeds only on a pending
future; on an already finalized future it raises `InvalidStateError`,
embedded as `none`. -/
def trySetResult (f : FutureState) (server_url : String) : Option FutureState :=
  match f with
  | .pending => some (.resolved server_url)
  | _ => none

/-- Embedding of the `except asyncio.CancelledError` handler in
`ConcurrentDispatcher.submit` (dispatcher.py lines 59-71), as a function of
the pool and the future's state at the moment cancellation is observed. The
handler's first `if` (`future.done() and not future.cancelled()`) fires
exactly in the resolved case and releases the granted slot; the second `if`
(`not future.done()`) fires exactly in the pending case and cancels the
future; the cancellation is then re-raised in every case. -/
def submitCancelHandler (pool : ServerPool) : FutureState → ServerPool × FutureState
  | .pending => (pool, .cancelled)
  | .resolved server_url => (pool.release_server server_url, .resolved server_url)
  | .cancelled => (pool, .cancelled)

/-- Result of one draining pass of `_process_queue_loop`: the pool and queue
afterwards, plus the admissions made (model, granted URL), in order. -/
structure DrainResult where
  pool : ServerPool
  queue : List InferenceTask
  resolved : List (String × String)
  deriving Repr, DecidableEq

/-- One draining pass of the matching loop in
`ConcurrentDispatcher._process_queue_loop` (dispatcher.py lines 85-106), with
the iteration count `n` being the `queue_len` snapshot. Each iteration
examines the head: an empty queue breaks the pass; a finalized future is
popped (garbage collection); otherwise `find_and_acquire` is attempted — on
success the task is popped and its future resolved with the URL, except that
a future concurrently finalized raises `InvalidStateError` on `set_result`
and the freshly acquired slot is immediately released; on failure the task is
rotated to the tail. The loop body has no suspension point, so future states
are fixed for the duration of a pass. -/
def drainPass : ServerPool → List InferenceTask → Nat → DrainResult
  | pool, queue, 0 => ⟨pool, queue, []⟩
  | pool, [], _ + 1 => ⟨pool, [], []⟩
  | pool, task :: rest, n + 1 =>
    if task.future.isDone then drainPass pool rest n
    else
      match pool.find_and_acquire task.model_id with
      | (some server_url, pool') =>
        match trySetResult task.future server_url with
        | some _ =>
          let r := drainPass pool' rest n
          ⟨r.pool, r.queue, (task.model_id, server_url) :: r.resolved⟩
        | none => drainPass (pool'.release_server server_url) rest n
      | (none, pool') => drainPass pool' (rest ++ [task]) n

/-- Requests for this model cannot be served by any configured server. -/
def Unservable (m : String) (pool : ServerPool) : Prop :=
  ∀ s ∈ pool.servers, m ∉ s.available_models

theorem find_and_acquire_of_unservable (pool : ServerPool) (m : String)
    (h : Unservable m pool) : pool.find_and_acquire m = (none, pool) := by
  apply find_and_acquire_of_no_eligible
  unfold eligibleServers
  rw [List.filter_eq_nil_iff]
  intro s hs
  simp only [decide_eq_true_eq]
  exact fun hel => h s hs hel.1

/-- Releasing right after acquiring undoes the acquire on a wellformed server
record: the granted increment is taken back and the pinned model reverts to
the pre-admission `current_model`. -/
theorem releaseUpdate_acquireUpdate (s : ServerConfig) (m : String)
    (hnn : 0 ≤ s.active_requests)
    (hiff : s.current_model = none ↔ s.active_requests = 0)
    (hel : ¬(s.current_model ≠ none ∧ s.current_model ≠ some m ∧ 0 < s.active_requests)) :
    releaseUpdate { s with active_requests := s.active_requests + 1,
                           current_model := some m } = s := by
  have hmax : max 0 (s.active_requests + 1 - 1) = s.active_requests := by
    rcases le_total (s.active_requests + 1 - 1) 0 with h | h
    · rw [max_eq_left h]
      omega
    · rw [max_eq_right h]
      omega
  unfold releaseUpdate
  refine ServerConfig.ext rfl rfl ?_ rfl ?_
  · exact hmax
  · show (if max 0 (s.active_requests + 1 - 1) = 0 then none else some m) = s.current_model
    rw [hmax]
    by_cases h0 : s.active_requests = 0
    · rw [if_pos h0]
      exact (hiff.mpr h0).symm
    · rw [if_neg h0]
      by_cases hc : s.current_model = none
      · exact absurd (hiff.mp hc) h0
      · by_cases hcm : s.current_model = some m
        · exact hcm.symm
        · exact absurd ⟨hc, hcm, by omega⟩ hel

/-- In a wellformed pool, releasing the URL just granted by a successful
`find_and_acquire` restores every server record exactly (and sets the
capacity-changed signal). -/
theorem release_after_acquire (pool : ServerPool) (m u : String) (pool1 : ServerPool)
    (hwf : WF pool) (hfa : pool.find_and_acquire m = (some u, pool1)) :
    (pool1.release_server u).servers = pool.servers ∧
    (pool1.release_server u).resource_available = true := by
  cases hE : eligibleServers m pool with
  | nil =>
    rw [find_and_acquire_of_no_eligible pool m hE] at hfa
    injection hfa with h1 h2
    exact Option.noConfusion h1
  | cons e es =>
    rw [find_and_acquire_of_eligible pool m e es hE] at hfa
    injection hfa with h1 h2
    have hu : (minByLoad e es).url = u := Option.some.inj h1
    subst hu
    subst h2
    obtain ⟨hwsrv, hwel⟩ := mem_eligibleServers.mp
      (show minByLoad e es ∈ eligibleServers m pool by rw [hE]; exact minByLoad_mem e es)
    have hf : ∀ s : ServerConfig,
        ((if s.url = (minByLoad e es).url then
            { s with active_requests := s.active_requests + 1,
                     current_model := some m }
          else s) : ServerConfig).url = s.url := by
      intro s
      by_cases hc : s.url = (minByLoad e es).url <;> simp [hc]
    have hmem : (minByLoad e es).url ∈
        (pool.servers.map (fun s =>
          if s.url = (minByLoad e es).url then
            { s with active_requests := s.active_requests + 1,
                     current_model := some m }
          else s)).map (fun s => s.url) := by
      rw [map_url_of_preserved hf pool.servers]
      exact List.mem_map_of_mem _ hwsrv
    unfold ServerPool.release_server
    rw [if_pos hmem]
    refine ⟨?_, rfl⟩
    show ((pool.servers.map _).map _) = pool.servers
    rw [List.map_map]
    have hpt : ∀ s ∈ pool.servers,
        ((fun t => if t.url = (minByLoad e es).url then releaseUpdate t else t) ∘
         (fun t => if t.url = (minByLoad e es).url then
            { t with active_requests := t.active_requests + 1,
                     current_model := some m }
          else t)) s = id s := by
      intro s hs
      simp only [Function.comp_apply, id_eq]
      by_cases hc : s.url = (minByLoad e es).url
      · have hsw : s = minByLoad e es := List.inj_on_of_nodup_map hwf.1 hs hwsrv hc
        rw [if_pos hc]
        have hurl2 : ({ s with active_requests := s.active_requests + 1, current_model := some m } : ServerConfig).url = (minByLoad e es).url := hc
        rw [if_pos hurl2]
        obtain ⟨hnn, hiff⟩ := hwf.2 s hs
        refine releaseUpdate_acquireUpdate s m hnn hiff ?_
        rw [hsw]
        exact hwel.2.1
      · rw [if_neg hc, if_neg hc]
    rw [List.map_congr_left hpt, List.map_id]

/-- C2: cancellation safety of `submit` and the symmetric loop-side race.
First part: when cancellation is observed while the future is still pending
(the request is queued, not yet admitted), the handler leaves the pool — every
server's `active_requests` and `current_model` — untouched and only marks the
future cancelled. Second part: when cancellation is observed after the future
was resolved with a URL granted by `find_and_acquire`, the handler releases
that URL, restoring every server record to its pre-admission value. Third
part: when the matching loop acquires a slot but `set_result` finds the
future already finalized, the loop's immediate `release_server` of the
just-acquired URL likewise restores every server record. -/
theorem submit_cancellation_safety (pool : ServerPool) (m : String) (hwf : WF pool) :
    (∀ q : ServerPool, submitCancelHandler q FutureState.pending =
      (q, FutureState.cancelled)) ∧
    (∀ u pool1, pool.find_and_acquire m = (some u, pool1) →
      (submitCancelHandler pool1 (FutureState.resolved u)).1.servers = pool.servers) ∧
    (∀ u pool1, pool.find_and_acquire m = (some u, pool1) →
      (pool1.release_server u).servers = pool.servers) := by
  refine ⟨fun q => rfl, ?_, ?_⟩
  · intro u pool1 hfa
    exact (release_after_acquire pool m u pool1 hwf hfa).1
  · intro u pool1 hfa
    exact (release_after_acquire pool m u pool1 hwf hfa).1

/-- Witness for C2 on `demoPool`: the pending-cancel case is a no-op on the
pool, and cancelling after "modelA" was granted (server s1) restores the
server list. -/
theorem submit_cancellation_safety_instance :
    WF demoPool ∧
    submitCancelHandler demoPool FutureState.pending = (demoPool, FutureState.cancelled) ∧
    (submitCancelHandler (demoPool.find_and_acquire "modelA").2
        (FutureState.resolved "http://s1")).1.servers = demoPool.servers :=
  ⟨by decide, (submit_cancellation_safety demoPool "modelA" (by decide)).1 demoPool,
   (submit_cancellation_safety demoPool "modelA" (by decide)).2.1 "http://s1"
     (demoPool.find_and_acquire "modelA").2 (by decide)⟩

instance (m : String) (pool : ServerPool) : Decidable (Unservable m pool) :=
  inferInstanceAs (Decidable (∀ s ∈ pool.servers, m ∉ s.available_models))

/-- A draining pass whose iteration budget `n` reaches at most the first `n`
queued tasks never looks past them: the tail beyond reach (here `q2` vs
`q2'`) influences neither the pool, nor the admissions, nor the fate of the
reachable prefix — it is merely carried along (rotated tasks pile up behind
it). -/
theorem drainPass_append_indep :
    ∀ (n : Nat) (pool : ServerPool) (q1 q2 q2' : List InferenceTask), n ≤ q1.length →
      ∃ q1r qrot,
        (drainPass pool (q1 ++ q2) n).pool = (drainPass pool (q1 ++ q2') n).pool ∧
        (drainPass pool (q1 ++ q2) n).resolved = (drainPass pool (q1 ++ q2') n).resolved ∧
        (drainPass pool (q1 ++ q2) n).queue = q1r ++ q2 ++ qrot ∧
        (drainPass pool (q1 ++ q2') n).queue = q1r ++ q2' ++ qrot := by
  intro n
  induction n with
  | zero =>
    intro pool q1 q2 q2' hn
    exact ⟨q1, [], by simp [drainPass], by simp [drainPass], by simp [drainPass],
      by simp [drainPass]⟩
  | succ n ih =>
    intro pool q1 q2 q2' hn
    cases q1 with
    | nil => simp at hn
    | cons x xs =>
      have hn' : n ≤ xs.length := by
        simp only [List.length_cons] at hn
        omega
      rw [List.cons_append, List.cons_append]
      cases hx : x.future with
      | resolved u =>
        have hred : ∀ q : List InferenceTask,
            drainPass pool (x :: q) (n + 1) = drainPass pool q n := by
          intro q
          simp [drainPass, hx, FutureState.isDone]
        rw [hred, hred]
        exact ih pool xs q2 q2' hn'
      | cancelled =>
        have hred : ∀ q : List InferenceTask,
            drainPass pool (x :: q) (n + 1) = drainPass pool q n := by
          intro q
          simp [drainPass, hx, FutureState.isDone]
        rw [hred, hred]
        exact ih pool xs q2 q2' hn'
      | pending =>
        cases hfa : pool.find_and_acquire x.model_id with
        | mk res pool2 =>
          cases res with
          | some server_url =>
            have hred : ∀ q : List InferenceTask,
                drainPass pool (x :: q) (n + 1) =
                  ⟨(drainPass pool2 q n).pool, (drainPass pool2 q n).queue,
                   (x.model_id, server_url) :: (drainPass pool2 q n).resolved⟩ := by
              intro q
              simp [drainPass, hx, FutureState.isDone, hfa, trySetResult]
            have hredp : ∀ q, (drainPass pool (x :: q) (n + 1)).pool =
                (drainPass pool2 q n).pool := fun q => by rw [hred q]
            have hredr : ∀ q, (drainPass pool (x :: q) (n + 1)).resolved =
                (x.model_id, server_url) :: (drainPass pool2 q n).resolved :=
              fun q => by rw [hred q]
            have hredq : ∀ q, (drainPass pool (x :: q) (n + 1)).queue =
                (drainPass pool2 q n).queue := fun q => by rw [hred q]
            obtain ⟨q1r, qrot, hp, hr, hq, hq'⟩ := ih pool2 xs q2 q2' hn'
            refine ⟨q1r, qrot, ?_, ?_, ?_, ?_⟩
            · rw [hredp, hredp]
              exact hp
            · rw [hredr, hredr, hr]
            · rw [hredq]
              exact hq
            · rw [hredq]
              exact hq'
          | none =>
            have hred : ∀ q : List InferenceTask,
                drainPass pool (x :: q) (n + 1) = drainPass pool2 (q ++ [x]) n := by
              intro q
              simp [drainPass, hx, FutureState.isDone, hfa]
            obtain ⟨q1r, qrot, hp, hr, hq, hq'⟩ :=
              ih pool2 xs (q2 ++ [x]) (q2' ++ [x]) hn'
            rw [← List.append_assoc xs q2 [x]] at hp hr hq
            rw [← List.append_assoc xs q2' [x]] at hp hr hq'
            refine ⟨q1r, x :: qrot, ?_, ?_, ?_, ?_⟩
            · rw [hred, hred]
              exact hp
            · rw [hred, hred]
              exact hr
            · rw [hred, hq]
              simp
            · rw [hred, hq']
              simp

/-- C8: rotate-on-failure and head-of-line non-blocking. A pending head
request whose model no server offers is rotated to the tail (first conjunct:
the pass continues on `rest ++ [t]` with one fewer iteration, exactly the
`rotate(-1)` step, rather than retrying `t` in place). Consequently the rest
of the pass behaves exactly as if `t` were absent: same final pool, same
admissions — so a request for a servable model behind `t` is admitted within
the very same pass — and the final queues differ only by `t` still sitting
unadmitted among the leftovers. -/
theorem rotate_on_failure_spec (pool : ServerPool) (t : InferenceTask)
    (rest : List InferenceTask) (hpend : t.future = FutureState.pending)
    (hunserv : Unservable t.model_id pool) :
    drainPass pool (t :: rest) (rest.length + 1) = drainPass pool (rest ++ [t]) rest.length ∧
    (drainPass pool (t :: rest) (rest.length + 1)).pool =
      (drainPass pool rest rest.length).pool ∧
    (drainPass pool (t :: rest) (rest.length + 1)).resolved =
      (drainPass pool rest rest.length).resolved ∧
    ∃ q1r qrot,
      (drainPass pool (t :: rest) (rest.length + 1)).queue = q1r ++ t :: qrot ∧
      (drainPass pool rest rest.length).queue = q1r ++ qrot := by
  have hstep : drainPass pool (t :: rest) (rest.length + 1) =
      drainPass pool (rest ++ [t]) rest.length := by
    simp [drainPass, hpend, FutureState.isDone,
      find_and_acquire_of_unservable pool t.model_id hunserv]
  obtain ⟨q1r, qrot, hp, hr, hq, hq'⟩ :=
    drainPass_append_indep rest.length pool rest [t] [] (le_refl _)
  rw [List.append_nil] at hp hr hq'
  refine ⟨hstep, by rw [hstep]; exact hp, by rw [hstep]; exact hr, q1r, qrot, ?_, ?_⟩
  · rw [hstep, hq]
    simp
  · rw [hq']
    simp

/-- Witness for C8: on `missPool` (which only offers "modelA"), a pending
request for the unservable "modelZ" at the head is rotated behind a pending
"modelA" request, and the pass admits the "modelA" request exactly as if the
"modelZ" request were absent. -/
theorem rotate_on_failure_spec_instance :
    (⟨"modelZ", FutureState.pending⟩ : InferenceTask).future = FutureState.pending ∧
    Unservable "modelZ" missPool ∧
    (drainPass missPool
        (⟨"modelZ", FutureState.pending⟩ :: [⟨"modelA", FutureState.pending⟩])
        ([(⟨"modelA", FutureState.pending⟩ : InferenceTask)].length + 1) =
      drainPass missPool
        ([⟨"modelA", FutureState.pending⟩] ++ [⟨"modelZ", FutureState.pending⟩])
        [(⟨"modelA", FutureState.pending⟩ : InferenceTask)].length ∧
    (drainPass missPool
        (⟨"modelZ", FutureState.pending⟩ :: [⟨"modelA", FutureState.pending⟩])
        ([(⟨"modelA", FutureState.pending⟩ : InferenceTask)].length + 1)).pool =
      (drainPass missPool [⟨"modelA", FutureState.pending⟩]
        [(⟨"modelA", FutureState.pending⟩ : InferenceTask)].length).pool ∧
    (drainPass missPool
        (⟨"modelZ", FutureState.pending⟩ :: [⟨"modelA", FutureState.pending⟩])
        ([(⟨"modelA", FutureState.pending⟩ : InferenceTask)].length + 1)).resolved =
      (drainPass missPool [⟨"modelA", FutureState.pending⟩]
        [(⟨"modelA", FutureState.pending⟩ : InferenceTask)].length).resolved ∧
    ∃ q1r qrot,
      (drainPass missPool
          (⟨"modelZ", FutureState.pending⟩ :: [⟨"modelA", FutureState.pending⟩])
          ([(⟨"modelA", FutureState.pending⟩ : InferenceTask)].length + 1)).queue =
        q1r ++ (⟨"modelZ", FutureState.pending⟩ : InferenceTask) :: qrot ∧
      (drainPass missPool [⟨"modelA", FutureState.pending⟩]
          [(⟨"modelA", FutureState.pending⟩ : InferenceTask)].length).queue =
        q1r ++ qrot) :=
  ⟨rfl, by decide,
   rotate_on_failure_spec missPool ⟨"modelZ", FutureState.pending⟩
     [⟨"modelA", FutureState.pending⟩] rfl (by decide)⟩

example :
    (ServerPool.init ["http://a", "http://b", "http://a"]).servers.map (fun s => s.url) =
      ["http://a", "http://b"] := by decide

example :
    let pool : ServerPool :=
      { servers := [{ url := "s0", available_models := ["modelA"] },
                    { url := "s1", available_models := ["modelA"] }] }
    (pool.find_and_acquire "modelA").1 = some "s0" := by decide

example :
    let pool : ServerPool :=
      { servers := [{ url := "s0", available_models := ["modelA", "modelB"],
                      active_requests := 1, current_model := some "modelA" }] }
    (pool.find_and_acquire "modelB").1 = none := by decide

end LocalInferencePool
